import Mathlib

/-!
Verification of the ordered key/value core of `bnclabs/jsondata`.

The repository has two structurally identical modules, `src/kv.rs` (type
`KeyValue`) and `src/property.rs` (type `Property`).  Each provides

  * a pair type `(key : String, value : Json)` whose `PartialEq` and
    `PartialOrd` implementations compare only the key;
  * `search_by_key`: binary search over a `Vec` sorted by key, returning
    `Ok(index)` when found and `Err(index)` (insertion point) when not;
  * `upsert_object_key`: replace-or-insert using `search_by_key`.

The JSON payload type `json::Json` comes from an external crate and is opaque
to this core, so it is modelled by a type parameter `V`.  The key type
`String` enters the algorithms only through `str::cmp`, a total lexicographic
order, so it is modelled by a type parameter `K` carrying a `LinearOrder`
(Rust's `String` with byte-lexicographic order is one instantiation).  A Rust
indexing panic (`obj[i]` out of bounds, `Vec::insert` past the end) is
modelled by `Option.none`; a normal return by `some`.
-/

/-- Model of Rust's total comparison `a.cmp(&b)` on keys: `lt` when `a < b`,
`eq` when `a = b`, `gt` otherwise. -/
def cmpKey {K : Type} [LinearOrder K] (a b : K) : Ordering :=
  if a < b then Ordering.lt else if a = b then Ordering.eq else Ordering.gt

namespace kv

/-- The type `KeyValue` of `src/kv.rs` (line 6): a `(String, Json)` pair.
The opaque payload `Json` is the parameter `V`; the key type is the parameter
`K` (instantiated at `String` in the source). -/
structure KeyValue (K V : Type) where
  key : K
  value : V
deriving DecidableEq

/-- Model of `impl PartialEq for KeyValue` (`src/kv.rs` lines 49-53):
`self.0 == other.0`, comparing only the key. -/
def KeyValue.beqKV {K V : Type} [LinearOrder K] (a b : KeyValue K V) : Bool :=
  decide (a.key = b.key)

/-- Model of `impl PartialOrd for KeyValue` (`src/kv.rs` lines 55-59):
`self.0.partial_cmp(other.key_ref())`, comparing only the key.  On `String`
the underlying comparison is total, so the result is always `some`. -/
def KeyValue.cmpKV {K V : Type} [LinearOrder K] (a b : KeyValue K V) :
    Option Ordering :=
  some (cmpKey a.key b.key)

/-- The `while size > 1` loop of `search_by_key` (`src/kv.rs` lines 68-79).
The mutable state is the pair `(base, size)`; the result is that state after
the loop exits, and `none` models an out-of-bounds `obj[mid]` panic. -/
def searchLoop {K V : Type} [LinearOrder K] (obj : List (KeyValue K V))
    (key : K) (base size : Nat) : Option (Nat × Nat) :=
  if _h : 1 < size then
    let half := size / 2
    let mid := base + half
    match obj[mid]? with
    | none => none
    | some item =>
      searchLoop obj key (if cmpKey item.key key = Ordering.gt then base else mid)
        (size - half)
  else
    some (base, size)
termination_by size
decreasing_by omega

/-- Model of `search_by_key` (`src/kv.rs` lines 62-84).  `some (Sum.inl i)`
models `Ok(i)` (key found at index `i`), `some (Sum.inr i)` models `Err(i)`
(key not found, insertion point `i`), and `none` models a panic. -/
def search_by_key {K V : Type} [LinearOrder K] (obj : List (KeyValue K V))
    (key : K) : Option (Nat ⊕ Nat) :=
  if obj.length = 0 then some (Sum.inr 0)
  else
    match searchLoop obj key 0 obj.length with
    | none => none
    | some (base, _) =>
      match obj[base]? with
      | none => none
      | some item =>
        let cmp := cmpKey item.key key
        if cmp = Ordering.eq then some (Sum.inl base)
        else some (Sum.inr (base + if cmp = Ordering.lt then 1 else 0))

/-- Model of `upsert_object_key` (`src/kv.rs` lines 86-91): on `Ok(off)` the
assignment `obj[off] = kv` (a panic when `off` is out of bounds), on
`Err(off)` the call `obj.insert(off, kv)` (a panic when `off > obj.len()`). -/
def upsert_object_key {K V : Type} [LinearOrder K] (obj : List (KeyValue K V))
    (entry : KeyValue K V) : Option (List (KeyValue K V)) :=
  match search_by_key obj entry.key with
  | none => none
  | some (Sum.inl off) =>
      if off < obj.length then some (obj.set off entry) else none
  | some (Sum.inr off) =>
      if off ≤ obj.length then some (obj.insertIdx off entry) else none

/-- The class invariant of object vectors: strictly sorted ascending by key
(which entails that no two entries share a key). -/
def SortedKV {K V : Type} [LinearOrder K] (obj : List (KeyValue K V)) : Prop :=
  obj.Pairwise (fun a b => a.key < b.key)

instance {K V : Type} [LinearOrder K] (obj : List (KeyValue K V)) :
    Decidable (SortedKV obj) :=
  List.instDecidablePairwise obj

/-- A finite sequence of `upsert_object_key` calls starting from the empty
vector, propagating a panic (`none`) if one ever occurred. -/
def upsertAll {K V : Type} [LinearOrder K] (entries : List (KeyValue K V)) :
    Option (List (KeyValue K V)) :=
  entries.foldl (fun acc e => acc.bind (fun l => upsert_object_key l e)) (some [])

end kv

namespace property

/-- The type `Property` of `src/property.rs` (line 18): a `(String, Json)`
pair, duplicated from `kv::KeyValue`; parameters as in `kv.KeyValue`. -/
structure Property (K V : Type) where
  key : K
  value : V
deriving DecidableEq

/-- Model of `impl PartialEq for Property` (`src/property.rs` lines 64-68):
`self.0 == other.0`, comparing only the key. -/
def Property.beqProp {K V : Type} [LinearOrder K] (a b : Property K V) : Bool :=
  decide (a.key = b.key)

/-- Model of `impl PartialOrd for Property` (`src/property.rs` lines 70-74):
`self.0.partial_cmp(other.key_ref())`, comparing only the key. -/
def Property.cmpProp {K V : Type} [LinearOrder K] (a b : Property K V) :
    Option Ordering :=
  some (cmpKey a.key b.key)

/-- The `while size > 1` loop of `search_by_key` (`src/property.rs` lines
83-94), textually identical to the loop in `src/kv.rs`. -/
def searchLoop {K V : Type} [LinearOrder K] (obj : List (Property K V))
    (key : K) (base size : Nat) : Option (Nat × Nat) :=
  if _h : 1 < size then
    let half := size / 2
    let mid := base + half
    match obj[mid]? with
    | none => none
    | some item =>
      searchLoop obj key (if cmpKey item.key key = Ordering.gt then base else mid)
        (size - half)
  else
    some (base, size)
termination_by size
decreasing_by omega

/-- Model of `search_by_key` (`src/property.rs` lines 77-99), textually
identical to `search_by_key` in `src/kv.rs`. -/
def search_by_key {K V : Type} [LinearOrder K] (obj : List (Property K V))
    (key : K) : Option (Nat ⊕ Nat) :=
  if obj.length = 0 then some (Sum.inr 0)
  else
    match searchLoop obj key 0 obj.length with
    | none => none
    | some (base, _) =>
      match obj[base]? with
      | none => none
      | some item =>
        let cmp := cmpKey item.key key
        if cmp = Ordering.eq then some (Sum.inl base)
        else some (Sum.inr (base + if cmp = Ordering.lt then 1 else 0))

/-- Model of `upsert_object_key` (`src/property.rs` lines 101-106), textually
identical to `upsert_object_key` in `src/kv.rs`. -/
def upsert_object_key {K V : Type} [LinearOrder K] (obj : List (Property K V))
    (prop : Property K V) : Option (List (Property K V)) :=
  match search_by_key obj prop.key with
  | none => none
  | some (Sum.inl off) =>
      if off < obj.length then some (obj.set off prop) else none
  | some (Sum.inr off) =>
      if off ≤ obj.length then some (obj.insertIdx off prop) else none

/-- The key- and value-preserving translation between the two duplicated
entry types. -/
def Property.toKV {K V : Type} (p : Property K V) : kv.KeyValue K V :=
  kv.KeyValue.mk p.key p.value

end property

theorem cmpKey_eq_lt {K : Type} [LinearOrder K] {a b : K} :
    cmpKey a b = Ordering.lt ↔ a < b := by
  unfold cmpKey
  split_ifs with h1 h2
  · simp [h1]
  · subst h2
    simpa using lt_irrefl a
  · constructor
    · intro h; cases h
    · intro h; exact absurd h h1

theorem cmpKey_eq_eq {K : Type} [LinearOrder K] {a b : K} :
    cmpKey a b = Ordering.eq ↔ a = b := by
  unfold cmpKey
  split_ifs with h1 h2
  · constructor
    · intro h; cases h
    · intro h; exact absurd (h ▸ h1) (lt_irrefl b)
  · simpa using h2
  · constructor
    · intro h; cases h
    · intro h; exact absurd h h2

theorem cmpKey_eq_gt {K : Type} [LinearOrder K] {a b : K} :
    cmpKey a b = Ordering.gt ↔ b < a := by
  unfold cmpKey
  split_ifs with h1 h2
  · constructor
    · intro h; cases h
    · intro h; exact absurd (lt_trans h1 h) (lt_irrefl a)
  · subst h2
    constructor
    · intro h; cases h
    · intro h; exact absurd h (lt_irrefl a)
  · constructor
    · intro _
      rcases lt_trichotomy a b with h | h | h
      · exact absurd h h1
      · exact absurd h h2
      · exact h
    · intro _; rfl

/-!  Loop bounds: unconditionally (no sortedness assumed), the binary-search
loop started on a window `[base, base+size)` lying inside the vector, with
`size ≥ 1`, performs only in-bounds accesses and stops with `size = 1` on a
position inside the initial window. -/

theorem kv_searchLoop_bounds {K V : Type} [LinearOrder K]
    (obj : List (kv.KeyValue K V)) (key : K) :
    ∀ base size, 1 ≤ size → base + size ≤ obj.length →
      ∃ b, kv.searchLoop obj key base size = some (b, 1) ∧
        base ≤ b ∧ b < base + size := by
  intro base size
  induction base, size using kv.searchLoop.induct obj key with
  | case1 base size h half mid hnone =>
    intro _h1 h2
    have : obj.length ≤ mid := List.getElem?_eq_none_iff.mp hnone
    simp only [mid, half] at this
    omega
  | case2 base size h half mid item hsome IH =>
    intro _h1 h2
    by_cases hc : cmpKey item.key key = Ordering.gt
    · simp only [hc, dite_true, if_true] at IH
      have h1' : 1 ≤ size - half := by simp only [half]; omega
      have h2' : base + (size - half) ≤ obj.length := by omega
      obtain ⟨b, heq, hb1, hb2⟩ := IH h1' h2'
      refine ⟨b, ?_, hb1, by omega⟩
      rw [kv.searchLoop]
      simp only [dif_pos h]
      rw [hsome]
      simp only [if_pos hc]
      exact heq
    · simp only [hc, dite_false, if_false] at IH
      have h1' : 1 ≤ size - half := by simp only [half]; omega
      have h2' : mid + (size - half) ≤ obj.length := by
        simp only [mid, half] at h2 ⊢; omega
      obtain ⟨b, heq, hb1, hb2⟩ := IH h1' h2'
      refine ⟨b, ?_, by simp only [mid] at hb1; omega, ?_⟩
      · rw [kv.searchLoop]
        simp only [dif_pos h]
        rw [hsome]
        simp only [if_neg hc]
        exact heq
      · simp only [mid, half] at hb2
        omega
  | case3 base size h =>
    intro h1 _h2
    rw [kv.searchLoop]
    simp only [dif_neg h]
    exact ⟨base, by rw [show size = 1 by omega], le_refl base, by omega⟩

/-!  Loop invariant on sorted input: every position strictly below `base` holds
a key below the probe, every position at or above `base + size` holds a key
above the probe, and both facts are maintained until the window shrinks to a
single candidate. -/

theorem kv_searchLoop_inv {K V : Type} [LinearOrder K]
    (obj : List (kv.KeyValue K V)) (key : K) (hs : kv.SortedKV obj) :
    ∀ base size, 1 ≤ size → base + size ≤ obj.length →
      (∀ j (hj : j < obj.length), j < base → (obj[j]).key < key) →
      (∀ j (hj : j < obj.length), base + size ≤ j → key < (obj[j]).key) →
      ∃ b, kv.searchLoop obj key base size = some (b, 1) ∧
        base ≤ b ∧ b < base + size ∧
        (∀ j (hj : j < obj.length), j < b → (obj[j]).key < key) ∧
        (∀ j (hj : j < obj.length), b + 1 ≤ j → key < (obj[j]).key) := by
  have hsort := List.pairwise_iff_getElem.mp hs
  intro base size
  induction base, size using kv.searchLoop.induct obj key with
  | case1 base size h half mid hnone =>
    intro _h1 h2
    have : obj.length ≤ mid := List.getElem?_eq_none_iff.mp hnone
    simp only [mid, half] at this
    omega
  | case2 base size h half mid item hsome IH =>
    intro _h1 h2 hlow hhigh
    obtain ⟨hmid, hitem⟩ := List.getElem?_eq_some_iff.mp hsome
    by_cases hc : cmpKey item.key key = Ordering.gt
    · -- probe key below obj[mid]: keep base, shrink size
      have hkey : key < item.key := cmpKey_eq_gt.mp hc
      simp only [hc, dite_true, if_true] at IH
      have h1' : 1 ≤ size - half := by simp only [half]; omega
      have h2' : base + (size - half) ≤ obj.length := by omega
      have hhigh' : ∀ j (hj : j < obj.length), base + (size - half) ≤ j →
          key < (obj[j]).key := by
        intro j hj hjge
        have hmj : mid ≤ j := by simp only [mid, half] at hjge ⊢; omega
        rcases Nat.eq_or_lt_of_le hmj with heq | hlt
        · subst heq; rw [hitem]; exact hkey
        · exact lt_trans hkey (hitem ▸ hsort mid j hmid hj hlt)
      obtain ⟨b, heq, hb1, hb2, hc1, hc2⟩ := IH h1' h2' hlow hhigh'
      refine ⟨b, ?_, hb1, by omega, hc1, hc2⟩
      rw [kv.searchLoop]
      simp only [dif_pos h]
      rw [hsome]
      simp only [if_pos hc]
      exact heq
    · -- obj[mid] at or below the probe key: advance base to mid
      have hkey : item.key ≤ key := not_lt.mp (fun hlt => hc (cmpKey_eq_gt.mpr hlt))
      simp only [hc, dite_false, if_false] at IH
      have h1' : 1 ≤ size - half := by simp only [half]; omega
      have h2' : mid + (size - half) ≤ obj.length := by
        simp only [mid, half] at h2 ⊢; omega
      have hlow' : ∀ j (hj : j < obj.length), j < mid → (obj[j]).key < key := by
        intro j hj hjlt
        by_cases hjb : j < base
        · exact hlow j hj hjb
        · exact lt_of_lt_of_le (hitem ▸ hsort j mid hj hmid hjlt) hkey
      have hhigh' : ∀ j (hj : j < obj.length), mid + (size - half) ≤ j →
          key < (obj[j]).key := by
        intro j hj hjge
        refine hhigh j hj ?_
        simp only [mid, half] at hjge ⊢
        omega
      obtain ⟨b, heq, hb1, hb2, hc1, hc2⟩ := IH h1' h2' hlow' hhigh'
      refine ⟨b, ?_, ?_, ?_, hc1, hc2⟩
      · rw [kv.searchLoop]
        simp only [dif_pos h]
        rw [hsome]
        simp only [if_neg hc]
        exact heq
      · simp only [mid] at hb1; omega
      · simp only [mid, half] at hb2; omega
  | case3 base size h =>
    intro h1 _h2 hlow hhigh
    rw [kv.searchLoop]
    simp only [dif_neg h]
    refine ⟨base, by rw [show size = 1 by omega], le_refl base, by omega, hlow, ?_⟩
    intro j hj hjge
    exact hhigh j hj (by omega)

/-!  Characterizations of `search_by_key` at the function level. -/

theorem kv_search_eval {K V : Type} [LinearOrder K]
    {obj : List (kv.KeyValue K V)} {key : K} {b : Nat}
    (hlen : obj.length ≠ 0)
    (hloop : kv.searchLoop obj key 0 obj.length = some (b, 1))
    (hb : b < obj.length) :
    ((obj[b]).key = key ∧ kv.search_by_key obj key = some (Sum.inl b)) ∨
    ((obj[b]).key < key ∧ kv.search_by_key obj key = some (Sum.inr (b + 1))) ∨
    (key < (obj[b]).key ∧ kv.search_by_key obj key = some (Sum.inr b)) := by
  unfold kv.search_by_key
  rw [if_neg hlen, hloop]
  simp only [List.getElem?_eq_getElem hb]
  cases hcc : cmpKey ((obj[b]).key) key with
  | lt => exact Or.inr (Or.inl ⟨cmpKey_eq_lt.mp hcc, rfl⟩)
  | eq => exact Or.inl ⟨cmpKey_eq_eq.mp hcc, rfl⟩
  | gt => exact Or.inr (Or.inr ⟨cmpKey_eq_gt.mp hcc, rfl⟩)

theorem kv_search_found_aux {K V : Type} [LinearOrder K]
    {obj : List (kv.KeyValue K V)} {key : K} {i : Nat}
    (h : kv.search_by_key obj key = some (Sum.inl i)) :
    ∃ hi : i < obj.length, (obj[i]).key = key := by
  by_cases hlen : obj.length = 0
  · unfold kv.search_by_key at h
    rw [if_pos hlen] at h
    simp at h
  · obtain ⟨b, hloop, _, hb2⟩ :=
      kv_searchLoop_bounds obj key 0 obj.length (by omega) (by omega)
    have hb : b < obj.length := by omega
    rcases kv_search_eval hlen hloop hb with ⟨hk, he⟩ | ⟨hk, he⟩ | ⟨hk, he⟩
    · rw [h] at he
      simp only [Option.some.injEq, Sum.inl.injEq] at he
      exact he ▸ ⟨hb, hk⟩
    · rw [h] at he
      simp at he
    · rw [h] at he
      simp at he

theorem kv_search_inr_le {K V : Type} [LinearOrder K]
    {obj : List (kv.KeyValue K V)} {key : K} {i : Nat}
    (h : kv.search_by_key obj key = some (Sum.inr i)) :
    i ≤ obj.length := by
  by_cases hlen : obj.length = 0
  · unfold kv.search_by_key at h
    rw [if_pos hlen] at h
    simp only [Option.some.injEq, Sum.inr.injEq] at h
    omega
  · obtain ⟨b, hloop, _, hb2⟩ :=
      kv_searchLoop_bounds obj key 0 obj.length (by omega) (by omega)
    have hb : b < obj.length := by omega
    rcases kv_search_eval hlen hloop hb with ⟨hk, he⟩ | ⟨hk, he⟩ | ⟨hk, he⟩
    · rw [h] at he
      simp at he
    · rw [h] at he
      simp only [Option.some.injEq, Sum.inr.injEq] at he
      omega
    · rw [h] at he
      simp only [Option.some.injEq, Sum.inr.injEq] at he
      omega

theorem kv_search_total {K V : Type} [LinearOrder K]
    (obj : List (kv.KeyValue K V)) (key : K) :
    ∃ r, kv.search_by_key obj key = some r := by
  by_cases hlen : obj.length = 0
  · unfold kv.search_by_key
    rw [if_pos hlen]
    exact ⟨Sum.inr 0, rfl⟩
  · obtain ⟨b, hloop, _, hb2⟩ :=
      kv_searchLoop_bounds obj key 0 obj.length (by omega) (by omega)
    have hb : b < obj.length := by omega
    rcases kv_search_eval hlen hloop hb with ⟨hk, he⟩ | ⟨hk, he⟩ | ⟨hk, he⟩ <;>
      exact ⟨_, he⟩

theorem kv_search_notfound_aux {K V : Type} [LinearOrder K]
    {obj : List (kv.KeyValue K V)} {key : K} {i : Nat}
    (hs : kv.SortedKV obj)
    (h : kv.search_by_key obj key = some (Sum.inr i)) :
    i ≤ obj.length ∧
      (∀ j (hj : j < obj.length), j < i → (obj[j]).key < key) ∧
      (∀ j (hj : j < obj.length), i ≤ j → key < (obj[j]).key) := by
  by_cases hlen : obj.length = 0
  · unfold kv.search_by_key at h
    rw [if_pos hlen] at h
    simp only [Option.some.injEq, Sum.inr.injEq] at h
    refine ⟨by omega, ?_, ?_⟩ <;> intro j hj <;> omega
  · obtain ⟨b, hloop, _, hb2, hc1, hc2⟩ :=
      kv_searchLoop_inv obj key hs 0 obj.length (by omega) (by omega)
        (by intro j hj hjlt; omega) (by intro j hj hjge; omega)
    have hb : b < obj.length := by omega
    rcases kv_search_eval hlen hloop hb with ⟨hk, he⟩ | ⟨hk, he⟩ | ⟨hk, he⟩ <;>
        rw [h] at he <;> simp only [Option.some.injEq, Sum.inr.injEq] at he
    · -- found: contradicts Err result
      cases he
    · -- final key below probe: insertion point b + 1
      subst he
      refine ⟨by omega, ?_, ?_⟩
      · intro j hj hjlt
        rcases Nat.lt_or_ge j b with hj2 | hj2
        · exact hc1 j hj hj2
        · have : j = b := by omega
          subst this
          exact hk
      · intro j hj hjge
        exact hc2 j hj (by omega)
    · -- final key above probe: insertion point b
      subst he
      refine ⟨by omega, fun j hj hjlt => hc1 j hj (by omega), ?_⟩
      intro j hj hjge
      rcases Nat.eq_or_lt_of_le hjge with hj2 | hj2
      · subst hj2
        exact hk
      · exact hc2 j hj (by omega)

/-!  Helper lemmas about `upsert_object_key` and sortedness preservation. -/

theorem kv_upsert_eq_found {K V : Type} [LinearOrder K]
    {obj : List (kv.KeyValue K V)} {e : kv.KeyValue K V} {i : Nat}
    (h : kv.search_by_key obj e.key = some (Sum.inl i)) :
    kv.upsert_object_key obj e = some (obj.set i e) := by
  obtain ⟨hi, _⟩ := kv_search_found_aux h
  unfold kv.upsert_object_key
  rw [h]
  simp only [if_pos hi]

theorem kv_upsert_eq_notfound {K V : Type} [LinearOrder K]
    {obj : List (kv.KeyValue K V)} {e : kv.KeyValue K V} {i : Nat}
    (h : kv.search_by_key obj e.key = some (Sum.inr i)) :
    kv.upsert_object_key obj e = some (obj.insertIdx i e) := by
  have hi := kv_search_inr_le h
  unfold kv.upsert_object_key
  rw [h]
  simp only [if_pos hi]

theorem kv_upsert_total {K V : Type} [LinearOrder K]
    (obj : List (kv.KeyValue K V)) (e : kv.KeyValue K V) :
    ∃ l, kv.upsert_object_key obj e = some l := by
  obtain ⟨r, hr⟩ := kv_search_total obj e.key
  cases r with
  | inl i => exact ⟨_, kv_upsert_eq_found hr⟩
  | inr i => exact ⟨_, kv_upsert_eq_notfound hr⟩

theorem kv_sorted_insertIdx {K V : Type} [LinearOrder K]
    {obj : List (kv.KeyValue K V)} {e : kv.KeyValue K V} {i : Nat}
    (hs : kv.SortedKV obj) (hi : i ≤ obj.length)
    (hlow : ∀ j (hj : j < obj.length), j < i → (obj[j]).key < e.key)
    (hhigh : ∀ j (hj : j < obj.length), i ≤ j → e.key < (obj[j]).key) :
    kv.SortedKV (obj.insertIdx i e) := by
  have hsort := List.pairwise_iff_getElem.mp hs
  have hlen : (obj.insertIdx i e).length = obj.length + 1 :=
    List.length_insertIdx i obj hi
  have hat : ∀ (j : Nat) (hj : j < (obj.insertIdx i e).length),
      (j < i → ∃ hjo : j < obj.length, (obj.insertIdx i e)[j] = obj[j]) ∧
      (j = i → (obj.insertIdx i e)[j] = e) ∧
      (i < j → ∃ hjo : j - 1 < obj.length, (obj.insertIdx i e)[j] = obj[j - 1]) := by
    intro j hj
    refine ⟨?_, ?_, ?_⟩
    · intro hji
      have hjo : j < obj.length := by omega
      exact ⟨hjo, List.getElem_insertIdx_of_lt obj e i j hji hjo⟩
    · intro hji
      subst hji
      exact List.getElem_insertIdx_self obj e j hi
    · intro hji
      have hjo : j - 1 < obj.length := by omega
      have hk : i + (j - 1 - i) = j - 1 := by omega
      have := List.getElem_insertIdx_add_succ obj e i (j - 1 - i) (by omega)
      simp only [hk] at this
      have hj2 : j - 1 + 1 = j := by omega
      simp only [hj2] at this
      exact ⟨hjo, this⟩
  rw [kv.SortedKV, List.pairwise_iff_getElem]
  intro j1 j2 hj1 hj2 hlt
  rcases Nat.lt_trichotomy j1 i with ha | ha | ha
  · obtain ⟨hj1o, e1⟩ := (hat j1 hj1).1 ha
    rw [e1]
    rcases Nat.lt_trichotomy j2 i with hb | hb | hb
    · obtain ⟨hj2o, e2⟩ := (hat j2 hj2).1 hb
      rw [e2]
      exact hsort j1 j2 hj1o hj2o hlt
    · rw [(hat j2 hj2).2.1 hb]
      exact hlow j1 hj1o ha
    · obtain ⟨hj2o, e2⟩ := (hat j2 hj2).2.2 hb
      rw [e2]
      rcases Nat.lt_or_ge (j2 - 1) i with hc | hc
      · exact hsort j1 (j2 - 1) hj1o hj2o (by omega)
      · exact lt_trans (hlow j1 hj1o ha) (hhigh (j2 - 1) hj2o hc)
  · subst ha
    rcases Nat.lt_trichotomy j2 j1 with hb | hb | hb
    · omega
    · omega
    · rw [(hat j1 hj1).2.1 rfl]
      obtain ⟨hj2o, e2⟩ := (hat j2 hj2).2.2 hb
      rw [e2]
      exact hhigh (j2 - 1) hj2o (by omega)
  · obtain ⟨hj1o, e1⟩ := (hat j1 hj1).2.2 ha
    obtain ⟨hj2o, e2⟩ := (hat j2 hj2).2.2 (by omega)
    rw [e1, e2]
    exact hsort (j1 - 1) (j2 - 1) hj1o hj2o (by omega)

theorem kv_sorted_set {K V : Type} [LinearOrder K]
    {obj : List (kv.KeyValue K V)} {e : kv.KeyValue K V} {i : Nat}
    (hs : kv.SortedKV obj) (hi : i < obj.length) (hk : e.key = (obj[i]).key) :
    kv.SortedKV (obj.set i e) := by
  have hsort := List.pairwise_iff_getElem.mp hs
  rw [kv.SortedKV, List.pairwise_iff_getElem]
  intro j1 j2 hj1 hj2 hlt
  have hj1o : j1 < obj.length := by simpa using hj1
  have hj2o : j2 < obj.length := by simpa using hj2
  rw [List.getElem_set, List.getElem_set]
  by_cases ha : i = j1
  · subst ha
    rw [if_pos rfl, if_neg (by omega)]
    exact hk ▸ hsort i j2 hj1o hj2o hlt
  · rw [if_neg ha]
    by_cases hb : i = j2
    · subst hb
      rw [if_pos rfl]
      exact hk ▸ hsort j1 i hj1o hj2o hlt
    · rw [if_neg hb]
      exact hsort j1 j2 hj1o hj2o hlt

theorem kv_upsert_sorted {K V : Type} [LinearOrder K]
    {obj l : List (kv.KeyValue K V)} {e : kv.KeyValue K V}
    (hs : kv.SortedKV obj) (h : kv.upsert_object_key obj e = some l) :
    kv.SortedKV l := by
  obtain ⟨r, hr⟩ := kv_search_total obj e.key
  cases r with
  | inl i =>
    rw [kv_upsert_eq_found hr] at h
    obtain ⟨hi, hkey⟩ := kv_search_found_aux hr
    injection h with h
    exact h ▸ kv_sorted_set hs hi hkey.symm
  | inr i =>
    rw [kv_upsert_eq_notfound hr] at h
    obtain ⟨hle, hlow, hhigh⟩ := kv_search_notfound_aux hs hr
    injection h with h
    exact h ▸ kv_sorted_insertIdx hs hle hlow hhigh

theorem kv_upsert_mem {K V : Type} [LinearOrder K]
    {obj l : List (kv.KeyValue K V)} {e : kv.KeyValue K V}
    (h : kv.upsert_object_key obj e = some l) :
    ∃ (i : Nat) (hi : i < l.length), l[i] = e := by
  obtain ⟨r, hr⟩ := kv_search_total obj e.key
  cases r with
  | inl i =>
    rw [kv_upsert_eq_found hr] at h
    obtain ⟨hi, _⟩ := kv_search_found_aux hr
    injection h with h
    subst h
    exact ⟨i, by simpa using hi, List.getElem_set_self (by simpa using hi)⟩
  | inr i =>
    rw [kv_upsert_eq_notfound hr] at h
    have hle := kv_search_inr_le hr
    injection h with h
    subst h
    refine ⟨i, ?_, List.getElem_insertIdx_self obj e i hle⟩
    rw [List.length_insertIdx i obj hle]
    omega

theorem kv_search_complete {K V : Type} [LinearOrder K]
    {obj : List (kv.KeyValue K V)} {key : K}
    (hs : kv.SortedKV obj)
    (hmem : ∃ (j : Nat) (hj : j < obj.length), (obj[j]).key = key) :
    ∃ i, kv.search_by_key obj key = some (Sum.inl i) := by
  obtain ⟨j, hj, hjk⟩ := hmem
  obtain ⟨r, hr⟩ := kv_search_total obj key
  cases r with
  | inl i => exact ⟨i, hr⟩
  | inr i =>
    obtain ⟨_, hlow, hhigh⟩ := kv_search_notfound_aux hs hr
    rcases Nat.lt_or_ge j i with hji | hji
    · exact absurd (hjk ▸ hlow j hj hji) (lt_irrefl key)
    · exact absurd (hjk ▸ hhigh j hj hji) (lt_irrefl key)

/-!  Correspondence between the two duplicated modules: `property` functions
agree with `kv` functions through the key- and value-preserving translation
`Property.toKV`. -/

theorem map_insertIdx_eq {A B : Type} (f : A → B) :
    ∀ (i : Nat) (a : A) (l : List A),
      (List.insertIdx i a l).map f = List.insertIdx i (f a) (l.map f)
  | 0, _, _ => rfl
  | _ + 1, _, [] => rfl
  | i + 1, a, x :: l => by
    simp only [List.insertIdx_succ_cons, List.map_cons, map_insertIdx_eq f i a l]

theorem prop_kv_searchLoop_eq {K V : Type} [LinearOrder K]
    (obj : List (property.Property K V)) (key : K) :
    ∀ base size, property.searchLoop obj key base size =
      kv.searchLoop (obj.map property.Property.toKV) key base size := by
  intro base size
  induction base, size using property.searchLoop.induct obj key with
  | case1 base size h half mid hnone =>
    rw [property.searchLoop, kv.searchLoop]
    simp only [dif_pos h]
    rw [hnone, List.getElem?_map, hnone]
    rfl
  | case2 base size h half mid item hsome IH =>
    rw [property.searchLoop, kv.searchLoop]
    simp only [dif_pos h]
    rw [hsome, List.getElem?_map, hsome]
    simp only [Option.map_some']
    by_cases hc : cmpKey item.key key = Ordering.gt
    · simp only [hc, dite_true, if_true] at IH
      have hc2 : cmpKey (property.Property.toKV item).key key = Ordering.gt := hc
      simp only [hc, hc2, if_true]
      exact IH
    · simp only [hc, dite_false, if_false] at IH
      have hc2 : ¬(cmpKey (property.Property.toKV item).key key = Ordering.gt) := hc
      simp only [if_neg hc, if_neg hc2]
      exact IH
  | case3 base size h =>
    rw [property.searchLoop, kv.searchLoop]
    simp only [dif_neg h]

theorem prop_kv_search_eq {K V : Type} [LinearOrder K]
    (obj : List (property.Property K V)) (key : K) :
    property.search_by_key obj key =
      kv.search_by_key (obj.map property.Property.toKV) key := by
  unfold property.search_by_key kv.search_by_key
  rw [List.length_map, ← prop_kv_searchLoop_eq]
  by_cases hlen : obj.length = 0
  · rw [if_pos hlen, if_pos hlen]
  · rw [if_neg hlen, if_neg hlen]
    cases hl : property.searchLoop obj key 0 obj.length with
    | none => rfl
    | some p =>
      obtain ⟨b, s⟩ := p
      simp only [List.getElem?_map]
      cases hob : obj[b]? with
      | none => rfl
      | some item => rfl

theorem prop_kv_upsert_eq {K V : Type} [LinearOrder K]
    (obj : List (property.Property K V)) (p : property.Property K V) :
    Option.map (List.map property.Property.toKV) (property.upsert_object_key obj p) =
      kv.upsert_object_key (obj.map property.Property.toKV)
        (property.Property.toKV p) := by
  unfold property.upsert_object_key kv.upsert_object_key
  have hk : (property.Property.toKV p).key = p.key := rfl
  rw [hk, ← prop_kv_search_eq]
  cases hr : property.search_by_key obj p.key with
  | none => rfl
  | some r =>
    cases r with
    | inl off =>
      rw [List.length_map]
      by_cases hoff : off < obj.length
      · simp only [if_pos hoff, Option.map_some', List.map_set]
      · simp only [if_neg hoff, Option.map_none']
    | inr off =>
      rw [List.length_map]
      by_cases hoff : off ≤ obj.length
      · simp only [if_pos hoff, Option.map_some', map_insertIdx_eq]
      · simp only [if_neg hoff, Option.map_none']

/-!  Folding upserts starting from a sorted vector never panics and preserves
sortedness. -/

theorem kv_upsertAll_go {K V : Type} [LinearOrder K] :
    ∀ (es : List (kv.KeyValue K V)) (l : List (kv.KeyValue K V)),
      kv.SortedKV l →
      ∃ t, es.foldl (fun acc e => acc.bind (fun l2 => kv.upsert_object_key l2 e))
          (some l) = some t ∧ kv.SortedKV t
  | [], l, hs => ⟨l, rfl, hs⟩
  | e :: es, l, hs => by
    obtain ⟨l1, h1⟩ := kv_upsert_total l e
    obtain ⟨t, ht, hst⟩ := kv_upsertAll_go es l1 (kv_upsert_sorted hs h1)
    refine ⟨t, ?_, hst⟩
    rw [List.foldl_cons,
      show (Option.some l).bind (fun l2 => kv.upsert_object_key l2 e) = some l1 from h1]
    exact ht

/-- Claim C1: on a strictly sorted vector, a `NotFound` result `Err(i)` of
`search_by_key` means: `i` is at most the length, every entry before `i` has
key below the probe, every entry from `i` on has key above the probe, no
entry's key equals the probe, and `i` is the smallest position at which
inserting an entry carrying the probe key preserves strict sortedness. -/
theorem search_notfound_insertion_point {K V : Type} [LinearOrder K]
    {obj : List (kv.KeyValue K V)} {key : K} {i : Nat}
    (hs : kv.SortedKV obj)
    (h : kv.search_by_key obj key = some (Sum.inr i)) :
    i ≤ obj.length ∧
    (∀ j (hj : j < obj.length), j < i → (obj[j]).key < key) ∧
    (∀ j (hj : j < obj.length), i ≤ j → key < (obj[j]).key) ∧
    (∀ j (hj : j < obj.length), (obj[j]).key ≠ key) ∧
    (∀ v : V, kv.SortedKV (obj.insertIdx i (kv.KeyValue.mk key v))) ∧
    (∀ (v : V) (m : Nat), m < i →
      ¬ kv.SortedKV (obj.insertIdx m (kv.KeyValue.mk key v))) := by
  obtain ⟨hle, hlow, hhigh⟩ := kv_search_notfound_aux hs h
  refine ⟨hle, hlow, hhigh, ?_, ?_, ?_⟩
  · intro j hj
    rcases Nat.lt_or_ge j i with hji | hji
    · exact ne_of_lt (hlow j hj hji)
    · exact ne_of_gt (hhigh j hj hji)
  · intro v
    exact kv_sorted_insertIdx hs hle (fun j hj hji => hlow j hj hji)
      (fun j hj hji => hhigh j hj hji)
  · intro v m hmi hsort
    have hm : m < obj.length := by omega
    have hlen : (obj.insertIdx m (kv.KeyValue.mk key v)).length = obj.length + 1 :=
      List.length_insertIdx m obj (by omega)
    have e1 : (obj.insertIdx m (kv.KeyValue.mk key v))[m] = kv.KeyValue.mk key v :=
      List.getElem_insertIdx_self obj (kv.KeyValue.mk key v) m (by omega)
    have e2 := List.getElem_insertIdx_add_succ obj (kv.KeyValue.mk key v) m 0
      (by omega)
    simp only [Nat.add_zero] at e2
    have hp := List.pairwise_iff_getElem.mp hsort m (m + 1)
      (by omega) (by omega) (by omega)
    rw [e1, e2] at hp
    exact absurd (hlow m hm hmi) (not_lt_of_lt hp)

/-- Claim C1 witness: the vector `[(5, 0)]` with probe key `7` yields
`Err(1)`, and the insertion-point characterization holds there. -/
theorem search_notfound_insertion_point_witness :
    kv.SortedKV [kv.KeyValue.mk 5 0] ∧
    kv.search_by_key [kv.KeyValue.mk 5 0] (7 : Nat) = some (Sum.inr 1) ∧
    (1 ≤ [kv.KeyValue.mk 5 0].length ∧
     (∀ j (hj : j < [kv.KeyValue.mk 5 0].length), j < 1 →
       ([kv.KeyValue.mk 5 0][j]).key < 7) ∧
     (∀ j (hj : j < [kv.KeyValue.mk 5 0].length), 1 ≤ j →
       7 < ([kv.KeyValue.mk 5 0][j]).key) ∧
     (∀ j (hj : j < [kv.KeyValue.mk 5 0].length),
       ([kv.KeyValue.mk 5 0][j]).key ≠ 7) ∧
     (∀ v : Nat, kv.SortedKV ([kv.KeyValue.mk 5 0].insertIdx 1 (kv.KeyValue.mk 7 v))) ∧
     (∀ (v : Nat) (m : Nat), m < 1 →
       ¬ kv.SortedKV ([kv.KeyValue.mk 5 0].insertIdx m (kv.KeyValue.mk 7 v)))) := by
  have hs : kv.SortedKV [kv.KeyValue.mk (5 : Nat) (0 : Nat)] := by decide
  have hsearch : kv.search_by_key [kv.KeyValue.mk 5 0] (7 : Nat) = some (Sum.inr 1) := by
    simp [kv.search_by_key, kv.searchLoop, cmpKey]
  exact ⟨hs, hsearch, search_notfound_insertion_point hs hsearch⟩

/-- Claim C2: on a sorted vector, a `Found` result `Ok(i)` of `search_by_key`
means `i` is a valid index and the entry there carries exactly the probe
key. -/
theorem search_found_match_sorted {K V : Type} [LinearOrder K]
    {obj : List (kv.KeyValue K V)} {key : K} {i : Nat}
    (_hs : kv.SortedKV obj)
    (h : kv.search_by_key obj key = some (Sum.inl i)) :
    ∃ hi : i < obj.length, (obj[i]).key = key :=
  kv_search_found_aux h

/-- Claim C2 witness: searching `[(5, 0)]` for key `5` yields `Ok(0)` and the
entry at index `0` carries key `5`. -/
theorem search_found_match_sorted_witness :
    kv.SortedKV [kv.KeyValue.mk 5 0] ∧
    kv.search_by_key [kv.KeyValue.mk 5 0] (5 : Nat) = some (Sum.inl 0) ∧
    ∃ hi : 0 < [kv.KeyValue.mk 5 0].length, ([kv.KeyValue.mk 5 0][0]).key = 5 := by
  have hs : kv.SortedKV [kv.KeyValue.mk (5 : Nat) (0 : Nat)] := by decide
  have hsearch : kv.search_by_key [kv.KeyValue.mk 5 0] (5 : Nat) = some (Sum.inl 0) := by
    simp [kv.search_by_key, kv.searchLoop, cmpKey]
  exact ⟨hs, hsearch, search_found_match_sorted hs hsearch⟩

/-- Claim C10: with no sortedness assumption at all, a `Found` result `Ok(i)`
of `search_by_key` (in either module) means `i` is in bounds and the entry at
`i` carries exactly the probe key, because `Ok` is only produced after a
direct equality comparison at that index. -/
theorem search_found_match_unconditional {K V : Type} [LinearOrder K]
    {obj : List (kv.KeyValue K V)} {objp : List (property.Property K V)}
    {key : K} {i j : Nat} :
    (kv.search_by_key obj key = some (Sum.inl i) →
      ∃ hi : i < obj.length, (obj[i]).key = key) ∧
    (property.search_by_key objp key = some (Sum.inl j) →
      ∃ hj : j < objp.length, (objp[j]).key = key) := by
  constructor
  · exact kv_search_found_aux
  · intro h
    rw [prop_kv_search_eq] at h
    obtain ⟨hj, hkey⟩ := kv_search_found_aux h
    rw [List.length_map] at hj
    refine ⟨hj, ?_⟩
    rw [List.getElem_map] at hkey
    exact hkey

/-- Claim C10 witness: an unsorted vector `[(9, 0), (2, 1)]` probed at key `2`
returns `Ok(1)` in both modules, and the entry at index `1` carries key `2`. -/
theorem search_found_match_unconditional_witness :
    (kv.search_by_key [kv.KeyValue.mk 9 0, kv.KeyValue.mk 2 1] (2 : Nat) =
      some (Sum.inl 1)) ∧
    (property.search_by_key [property.Property.mk 9 0, property.Property.mk 2 1]
      (2 : Nat) = some (Sum.inl 1)) ∧
    (∃ hi : 1 < [kv.KeyValue.mk 9 0, kv.KeyValue.mk 2 1].length,
      ([kv.KeyValue.mk 9 0, kv.KeyValue.mk 2 1][1]).key = 2) ∧
    (∃ hj : 1 < [property.Property.mk 9 0, property.Property.mk 2 1].length,
      ([property.Property.mk 9 0, property.Property.mk 2 1][1]).key = 2) := by
  have h1 : kv.search_by_key [kv.KeyValue.mk 9 0, kv.KeyValue.mk 2 1] (2 : Nat) =
      some (Sum.inl 1) := by
    simp [kv.search_by_key, kv.searchLoop, cmpKey] <;> decide
  have h2 : property.search_by_key
      [property.Property.mk 9 0, property.Property.mk 2 1] (2 : Nat) =
      some (Sum.inl 1) := by
    simp [property.search_by_key, property.searchLoop, cmpKey] <;> decide
  exact ⟨h1, h2,
    (@search_found_match_unconditional Nat Nat _
      [kv.KeyValue.mk 9 0, kv.KeyValue.mk 2 1]
      [property.Property.mk 9 0, property.Property.mk 2 1] 2 1 1).1 h1,
    (@search_found_match_unconditional Nat Nat _
      [kv.KeyValue.mk 9 0, kv.KeyValue.mk 2 1]
      [property.Property.mk 9 0, property.Property.mk 2 1] 2 1 1).2 h2⟩

/-- Claim C5: for every input vector — sorted or not, empty or not — and every
probe key, `search_by_key` (in either module) performs only in-bounds accesses
and returns normally: the panic outcome (`none` in this model) is
unreachable. -/
theorem search_no_panic {K V : Type} [LinearOrder K]
    (obj : List (kv.KeyValue K V)) (objp : List (property.Property K V))
    (key : K) :
    (∃ r, kv.search_by_key obj key = some r) ∧
    (∃ r, property.search_by_key objp key = some r) := by
  refine ⟨kv_search_total obj key, ?_⟩
  rw [prop_kv_search_eq]
  exact kv_search_total _ key

/-- Claim C7: boundary behaviour of `search_by_key`: the empty vector yields
`Err(0)` for every probe; on a non-empty sorted vector, a probe below every
key yields `Err(0)` and a probe above every key yields `Err(length)`. -/
theorem search_boundary_cases {K V : Type} [LinearOrder K]
    {obj : List (kv.KeyValue K V)} {key : K} :
    kv.search_by_key ([] : List (kv.KeyValue K V)) key = some (Sum.inr 0) ∧
    (kv.SortedKV obj → obj ≠ [] →
      ((∀ e ∈ obj, key < e.key) →
        kv.search_by_key obj key = some (Sum.inr 0)) ∧
      ((∀ e ∈ obj, e.key < key) →
        kv.search_by_key obj key = some (Sum.inr obj.length))) := by
  refine ⟨rfl, fun hs hne => ⟨?_, ?_⟩⟩
  · intro hbelow
    have hpos : 0 < obj.length := List.length_pos.mpr hne
    obtain ⟨r, hr⟩ := kv_search_total obj key
    cases r with
    | inl i =>
      obtain ⟨hi, hkey⟩ := kv_search_found_aux hr
      exact absurd (hkey ▸ hbelow (obj[i]) (List.getElem_mem hi)) (lt_irrefl key)
    | inr i =>
      rcases Nat.eq_zero_or_pos i with hz | hz
      · exact hz ▸ hr
      · obtain ⟨_, hlow, _⟩ := kv_search_notfound_aux hs hr
        have h0 : (obj[0]).key < key := hlow 0 hpos hz
        exact absurd (lt_trans (hbelow (obj[0]) (List.getElem_mem hpos)) h0)
          (lt_irrefl key)
  · intro habove
    have hpos : 0 < obj.length := List.length_pos.mpr hne
    obtain ⟨r, hr⟩ := kv_search_total obj key
    cases r with
    | inl i =>
      obtain ⟨hi, hkey⟩ := kv_search_found_aux hr
      exact absurd (hkey ▸ habove (obj[i]) (List.getElem_mem hi)) (lt_irrefl key)
    | inr i =>
      obtain ⟨hle, _, hhigh⟩ := kv_search_notfound_aux hs hr
      rcases Nat.lt_or_ge i obj.length with hlt | hge
      · have h1 : key < (obj[i]).key := hhigh i hlt (le_refl i)
        exact absurd (lt_trans h1 (habove (obj[i]) (List.getElem_mem hlt)))
          (lt_irrefl key)
      · have : i = obj.length := by omega
        exact this ▸ hr

/-- Claim C7 witness: the empty vector probed at `0` yields `Err(0)`; the
vector `[(5, 0)]` probed at `3` (below every key) yields `Err(0)` and probed
at `9` (above every key) yields `Err(1)` = `Err(length)`. -/
theorem search_boundary_cases_witness :
    kv.search_by_key ([] : List (kv.KeyValue Nat Nat)) 0 = some (Sum.inr 0) ∧
    kv.search_by_key [kv.KeyValue.mk 5 0] (3 : Nat) = some (Sum.inr 0) ∧
    kv.search_by_key [kv.KeyValue.mk 5 0] (9 : Nat) =
      some (Sum.inr [kv.KeyValue.mk 5 0].length) := by
  have hs : kv.SortedKV [kv.KeyValue.mk (5 : Nat) (0 : Nat)] := by decide
  have hne : [kv.KeyValue.mk (5 : Nat) (0 : Nat)] ≠ [] := by decide
  refine ⟨(@search_boundary_cases Nat Nat _ [] 0).1, ?_, ?_⟩
  · exact ((@search_boundary_cases Nat Nat _ [kv.KeyValue.mk 5 0] 3).2 hs hne).1
      (by decide)
  · exact ((@search_boundary_cases Nat Nat _ [kv.KeyValue.mk 5 0] 9).2 hs hne).2
      (by decide)

/-- Claim C3: any finite sequence of upserts starting from the empty vector
succeeds and produces a vector strictly sorted ascending by key, with no two
entries sharing a key. -/
theorem upsertAll_sorted_unique {K V : Type} [LinearOrder K]
    (es : List (kv.KeyValue K V)) :
    ∃ l, kv.upsertAll es = some l ∧ kv.SortedKV l ∧
      (l.map kv.KeyValue.key).Nodup := by
  obtain ⟨l, hl, hs⟩ := kv_upsertAll_go es [] List.Pairwise.nil
  refine ⟨l, hl, hs, ?_⟩
  exact List.pairwise_map.mpr (hs.imp fun h => ne_of_lt h)

/-- Claim C4: on a well-formed (strictly sorted) vector, upserting `(k, v1)`
and then `(k, v2)` yields a vector with exactly one entry for key `k`, whose
value is `v2` (last write wins), and whose length equals the length after the
first upsert alone. -/
theorem upsert_last_write_wins {K V : Type} [LinearOrder K]
    {obj : List (kv.KeyValue K V)} (hs : kv.SortedKV obj) (k : K) (v1 v2 : V) :
    ∃ obj1 obj2,
      kv.upsert_object_key obj (kv.KeyValue.mk k v1) = some obj1 ∧
      kv.upsert_object_key obj1 (kv.KeyValue.mk k v2) = some obj2 ∧
      obj2.length = obj1.length ∧
      ∃ (i : Nat) (hi : i < obj2.length),
        obj2[i] = kv.KeyValue.mk k v2 ∧
        ∀ j (hj : j < obj2.length), (obj2[j]).key = k → j = i := by
  obtain ⟨obj1, h1⟩ := kv_upsert_total obj (kv.KeyValue.mk k v1)
  have hs1 := kv_upsert_sorted hs h1
  obtain ⟨i1, hi1, hmem⟩ := kv_upsert_mem h1
  have hkey1 : (obj1[i1]).key = k := by rw [hmem]
  obtain ⟨j, hj⟩ := kv_search_complete hs1 ⟨i1, hi1, hkey1⟩
  have h2 : kv.upsert_object_key obj1 (kv.KeyValue.mk k v2) =
      some (obj1.set j (kv.KeyValue.mk k v2)) :=
    kv_upsert_eq_found hj
  obtain ⟨hjl, hjkey⟩ := kv_search_found_aux hj
  have hs2 : kv.SortedKV (obj1.set j (kv.KeyValue.mk k v2)) :=
    kv_sorted_set hs1 hjl hjkey.symm
  have hjl2 : j < (obj1.set j (kv.KeyValue.mk k v2)).length := by simpa using hjl
  refine ⟨obj1, _, h1, h2, by simp, j, hjl2, List.getElem_set_self hjl2, ?_⟩
  intro j2 hj2 hkeyj2
  have hp := List.pairwise_iff_getElem.mp hs2
  have hkj : ((obj1.set j (kv.KeyValue.mk k v2))[j]).key = k := by
    rw [List.getElem_set_self hjl2]
  rcases Nat.lt_trichotomy j2 j with hlt | heq | hgt
  · have := hp j2 j hj2 hjl2 hlt
    rw [hkeyj2, hkj] at this
    exact absurd this (lt_irrefl k)
  · exact heq
  · have := hp j j2 hjl2 hj2 hgt
    rw [hkeyj2, hkj] at this
    exact absurd this (lt_irrefl k)

/-- Claim C4 witness: starting from the empty vector, upserting `(4, 1)` then
`(4, 2)` leaves a single entry `(4, 2)`. -/
theorem upsert_last_write_wins_witness :
    kv.SortedKV ([] : List (kv.KeyValue Nat Nat)) ∧
    ∃ obj1 obj2,
      kv.upsert_object_key ([] : List (kv.KeyValue Nat Nat))
        (kv.KeyValue.mk 4 1) = some obj1 ∧
      kv.upsert_object_key obj1 (kv.KeyValue.mk 4 2) = some obj2 ∧
      obj2.length = obj1.length ∧
      ∃ (i : Nat) (hi : i < obj2.length),
        obj2[i] = kv.KeyValue.mk 4 2 ∧
        ∀ j (hj : j < obj2.length), (obj2[j]).key = 4 → j = i := by
  have hs : kv.SortedKV ([] : List (kv.KeyValue Nat Nat)) := List.Pairwise.nil
  exact ⟨hs, upsert_last_write_wins hs 4 1 2⟩

/-- Claim C8: frame conditions of `upsert_object_key` on a well-formed vector:
a `Found(i)` search result leads to replacing exactly position `i`, keeping
every other entry and the length; a `NotFound(i)` result leads to inserting at
`i`, keeping entries before `i` in place, shifting entries from `i` one
position later, and growing the length by one. -/
theorem upsert_frame_conditions {K V : Type} [LinearOrder K]
    {obj : List (kv.KeyValue K V)} {e : kv.KeyValue K V}
    (_hs : kv.SortedKV obj) :
    (∀ i, kv.search_by_key obj e.key = some (Sum.inl i) →
      ∃ l, kv.upsert_object_key obj e = some l ∧ l.length = obj.length ∧
        (∃ hi : i < l.length, l[i] = e) ∧
        (∀ j (hj1 : j < l.length) (hj2 : j < obj.length), j ≠ i →
          l[j] = obj[j])) ∧
    (∀ i, kv.search_by_key obj e.key = some (Sum.inr i) →
      ∃ l, kv.upsert_object_key obj e = some l ∧ l.length = obj.length + 1 ∧
        (∃ hi : i < l.length, l[i] = e) ∧
        (∀ j (hj : j < obj.length), j < i →
          ∃ hj1 : j < l.length, l[j] = obj[j]) ∧
        (∀ j (hj : j < obj.length), i ≤ j →
          ∃ hj1 : j + 1 < l.length, l[j + 1] = obj[j])) := by
  constructor
  · intro i hi
    obtain ⟨hilen, _⟩ := kv_search_found_aux hi
    refine ⟨obj.set i e, kv_upsert_eq_found hi, List.length_set obj i e,
      ⟨by simpa using hilen, List.getElem_set_self (by simpa using hilen)⟩, ?_⟩
    intro j hj1 hj2 hne
    exact List.getElem_set_ne (fun h => hne h.symm) hj1
  · intro i hi
    have hle := kv_search_inr_le hi
    have hlen : (obj.insertIdx i e).length = obj.length + 1 :=
      List.length_insertIdx i obj hle
    refine ⟨obj.insertIdx i e, kv_upsert_eq_notfound hi, hlen,
      ⟨by omega, List.getElem_insertIdx_self obj e i hle⟩, ?_, ?_⟩
    · intro j hj hji
      exact ⟨by omega, List.getElem_insertIdx_of_lt obj e i j hji hj⟩
    · intro j hj hij
      have hk : i + (j - i) = j := by omega
      have h2 := List.getElem_insertIdx_add_succ obj e i (j - i) (by omega)
      simp only [hk] at h2
      exact ⟨by omega, h2⟩

/-- Claim C8 witness: on `[(2, 0), (6, 1)]`, upserting `(6, 9)` (whose key is
found at index 1) replaces exactly index 1, and upserting `(4, 7)` (not found,
insertion point 1) inserts at index 1 and shifts the tail. -/
theorem upsert_frame_conditions_witness :
    kv.SortedKV [kv.KeyValue.mk 2 0, kv.KeyValue.mk 6 1] ∧
    kv.search_by_key [kv.KeyValue.mk 2 0, kv.KeyValue.mk 6 1]
      (kv.KeyValue.mk (6 : Nat) (9 : Nat)).key = some (Sum.inl 1) ∧
    kv.search_by_key [kv.KeyValue.mk 2 0, kv.KeyValue.mk 6 1]
      (kv.KeyValue.mk (4 : Nat) (7 : Nat)).key = some (Sum.inr 1) ∧
    (∃ l, kv.upsert_object_key [kv.KeyValue.mk 2 0, kv.KeyValue.mk 6 1]
        (kv.KeyValue.mk 6 9) = some l ∧
      l.length = [kv.KeyValue.mk 2 0, kv.KeyValue.mk 6 1].length ∧
      (∃ hi : 1 < l.length, l[1] = kv.KeyValue.mk 6 9) ∧
      (∀ j (hj1 : j < l.length)
        (hj2 : j < [kv.KeyValue.mk 2 0, kv.KeyValue.mk 6 1].length), j ≠ 1 →
        l[j] = [kv.KeyValue.mk 2 0, kv.KeyValue.mk 6 1][j])) ∧
    (∃ l, kv.upsert_object_key [kv.KeyValue.mk 2 0, kv.KeyValue.mk 6 1]
        (kv.KeyValue.mk 4 7) = some l ∧
      l.length = [kv.KeyValue.mk 2 0, kv.KeyValue.mk 6 1].length + 1 ∧
      (∃ hi : 1 < l.length, l[1] = kv.KeyValue.mk 4 7) ∧
      (∀ j (hj : j < [kv.KeyValue.mk 2 0, kv.KeyValue.mk 6 1].length), j < 1 →
        ∃ hj1 : j < l.length, l[j] = [kv.KeyValue.mk 2 0, kv.KeyValue.mk 6 1][j]) ∧
      (∀ j (hj : j < [kv.KeyValue.mk 2 0, kv.KeyValue.mk 6 1].length), 1 ≤ j →
        ∃ hj1 : j + 1 < l.length,
          l[j + 1] = [kv.KeyValue.mk 2 0, kv.KeyValue.mk 6 1][j])) := by
  have hs : kv.SortedKV [kv.KeyValue.mk (2 : Nat) (0 : Nat), kv.KeyValue.mk 6 1] := by
    decide
  have hfound : kv.search_by_key [kv.KeyValue.mk 2 0, kv.KeyValue.mk 6 1]
      (kv.KeyValue.mk (6 : Nat) (9 : Nat)).key = some (Sum.inl 1) := by
    simp [kv.search_by_key, kv.searchLoop, cmpKey] <;> decide
  have hins : kv.search_by_key [kv.KeyValue.mk 2 0, kv.KeyValue.mk 6 1]
      (kv.KeyValue.mk (4 : Nat) (7 : Nat)).key = some (Sum.inr 1) := by
    simp [kv.search_by_key, kv.searchLoop, cmpKey] <;> decide
  exact ⟨hs, hfound, hins,
    (upsert_frame_conditions hs).1 1 hfound,
    (upsert_frame_conditions hs).2 1 hins⟩

/-- Claim C6: the two duplicated modules implement one and the same
abstraction: through the key- and value-preserving translation `Property.toKV`
the two searches return identical results on identical contents, and the two
upserts produce sequences with identical (key, value) contents. -/
theorem modules_extensionally_equal {K V : Type} [LinearOrder K]
    (obj : List (property.Property K V)) (key : K) (p : property.Property K V) :
    property.search_by_key obj key =
      kv.search_by_key (obj.map property.Property.toKV) key ∧
    Option.map (List.map property.Property.toKV)
        (property.upsert_object_key obj p) =
      kv.upsert_object_key (obj.map property.Property.toKV)
        (property.Property.toKV p) :=
  ⟨prop_kv_search_eq obj key, prop_kv_upsert_eq obj p⟩

/-- Claim C9: in both modules, equality of two entries holds exactly when
their keys are equal, the partial comparison of two entries is exactly the
total comparison of their keys (wrapped in `some`), and neither operation
consults the value component. -/
theorem entry_eq_ord_key_only {K V : Type} [LinearOrder K]
    (a b : kv.KeyValue K V) (c d : property.Property K V) :
    (kv.KeyValue.beqKV a b = true ↔ a.key = b.key) ∧
    kv.KeyValue.cmpKV a b = some (cmpKey a.key b.key) ∧
    (∀ v w : V,
      kv.KeyValue.beqKV (kv.KeyValue.mk a.key v) (kv.KeyValue.mk b.key w) =
        kv.KeyValue.beqKV a b ∧
      kv.KeyValue.cmpKV (kv.KeyValue.mk a.key v) (kv.KeyValue.mk b.key w) =
        kv.KeyValue.cmpKV a b) ∧
    (property.Property.beqProp c d = true ↔ c.key = d.key) ∧
    property.Property.cmpProp c d = some (cmpKey c.key d.key) ∧
    (∀ v w : V,
      property.Property.beqProp (property.Property.mk c.key v)
          (property.Property.mk d.key w) =
        property.Property.beqProp c d ∧
      property.Property.cmpProp (property.Property.mk c.key v)
          (property.Property.mk d.key w) =
        property.Property.cmpProp c d) := by
  refine ⟨?_, rfl, fun v w => ⟨rfl, rfl⟩, ?_, rfl, fun v w => ⟨rfl, rfl⟩⟩
  · simp [kv.KeyValue.beqKV]
  · simp [property.Property.beqProp]
